import Mathlib

/-!
Verification of the traffic-light schedule compiler (`scripts/compile.py`).

The file shallowly embeds the five pipeline stages of the compiler —
state parsing (`light_states`), switch reduction (`light_switches`),
timestamp binding (`timed_switches`), call mapping (`timed_calls`) and
merge/sort/group (`sorted_grouped_calls`) — and proves or refutes the
specified properties about them.  Durations (`datetime.timedelta` in the
source, whose value is an exact integer count of microseconds) are
modelled as integers; the error values raised by the source (`ValueError`
with distinct messages) are modelled as a sum type with one constructor
per error condition of the spec's taxonomy.
-/

namespace TrafficLight

/-- Light powered state (`LightState` enum in the source). -/
inductive LightState where
  | ON
  | OFF
  | UNDETERMINED
deriving DecidableEq

/-- Switch to make to light powered state (`LightSwitch` enum in the source). -/
inductive LightSwitch where
  | ON
  | OFF
deriving DecidableEq

/-- The error conditions raised by the source: `FormatError` (a state token
that is neither empty nor an enum member name), `EmptyInputError` (empty
state sequence) and `IndeterminateStartError` (first state undetermined). -/
inductive CompileError where
  | formatError (token : String)
  | emptyInputError
  | indeterminateStartError
deriving DecidableEq

/-- Equality of modelled results is decidable, so concrete runs of the
pipeline can be checked by evaluation. -/
instance {ε α : Type} [DecidableEq ε] [DecidableEq α] : DecidableEq (Except ε α) := fun x y =>
  match x, y with
  | Except.error a, Except.error b =>
    if h : a = b then Decidable.isTrue (congrArg Except.error h)
    else Decidable.isFalse (fun hc => h (Except.error.inj hc))
  | Except.ok a, Except.ok b =>
    if h : a = b then Decidable.isTrue (congrArg Except.ok h)
    else Decidable.isFalse (fun hc => h (Except.ok.inj hc))
  | Except.error _, Except.ok _ => Decidable.isFalse (fun hc => Except.noConfusion hc)
  | Except.ok _, Except.error _ => Decidable.isFalse (fun hc => Except.noConfusion hc)

/-- Python's `str.strip()`: remove whitespace characters from both ends of
the token (modelled over the token's character list). -/
def strip (s : String) : String :=
  String.mk (((s.data.dropWhile Char.isWhitespace).reverse.dropWhile
    Char.isWhitespace).reverse)

/-- One token of `light_states`: the token is stripped of surrounding
whitespace; an empty result maps to `UNDETERMINED`; otherwise the source
performs the enum name lookup `LightState[state]`, which recognises exactly
the member names `ON`, `OFF` and `UNDETERMINED`; any other token raises the
error naming the stripped token. -/
def parseToken (token : String) : Except CompileError LightState :=
  let s := strip token
  if s = "" then Except.ok LightState.UNDETERMINED
  else if s = "ON" then Except.ok LightState.ON
  else if s = "OFF" then Except.ok LightState.OFF
  else if s = "UNDETERMINED" then Except.ok LightState.UNDETERMINED
  else Except.error (CompileError.formatError s)

/-- `light_states` from the source: parse a sequence of light powered state
specifications, failing at the first unparseable token. -/
def light_states : List String → Except CompileError (List LightState)
  | [] => Except.ok []
  | token :: rest =>
    match parseToken token with
    | Except.error e => Except.error e
    | Except.ok st =>
      match light_states rest with
      | Except.error e => Except.error e
      | Except.ok sts => Except.ok (st :: sts)

/-- The tokens accepted by `light_states` (after stripping): empty, or one
of the three enum member names. -/
abbrev recognizedToken (t : String) : Prop :=
  strip t = "" ∨ strip t = "ON" ∨ strip t = "OFF" ∨ strip t = "UNDETERMINED"

/-- The state a recognized token is parsed to. -/
def interpToken (t : String) : LightState :=
  if strip t = "ON" then LightState.ON
  else if strip t = "OFF" then LightState.OFF
  else LightState.UNDETERMINED

/-- The loop body of `light_switches` in the source.  The accumulator is the
`state` variable of the source, which is reassigned to `next_state` after
EVERY iteration — including iterations where `next_state` is
`UNDETERMINED` and `None` was yielded. -/
def switchesFrom : LightState → List LightState → List (Option LightSwitch)
  | _, [] => []
  | state, next :: rest =>
    (if next = state ∨ next = LightState.UNDETERMINED then none
     else if next = LightState.ON then some LightSwitch.ON
     else some LightSwitch.OFF) :: switchesFrom next rest

/-- `light_switches` from the source: generate switches from a sequence of
light powered states.  An empty sequence and a sequence starting with
`UNDETERMINED` are errors; otherwise the first output is the switch
matching the first state, followed by the loop of `switchesFrom`. -/
def light_switches : List LightState → Except CompileError (List (Option LightSwitch))
  | [] => Except.error CompileError.emptyInputError
  | LightState.UNDETERMINED :: _ => Except.error CompileError.indeterminateStartError
  | LightState.ON :: rest => Except.ok (some LightSwitch.ON :: switchesFrom LightState.ON rest)
  | LightState.OFF :: rest => Except.ok (some LightSwitch.OFF :: switchesFrom LightState.OFF rest)

/-- The powered state a switch commands. -/
def stateOfSwitch : LightSwitch → LightState
  | LightSwitch.ON => LightState.ON
  | LightSwitch.OFF => LightState.OFF

/-- Helper for the effective-state expansion: walk a switch-or-absent
sequence carrying the current effective state, replacing each absent
marker by a repeat of that state. -/
def expandEffective : LightState → List (Option LightSwitch) → List LightState
  | _, [] => []
  | cur, none :: rest => cur :: expandEffective cur rest
  | _, some sw :: rest => stateOfSwitch sw :: expandEffective (stateOfSwitch sw) rest

/-- The effective-state expansion of a reducer output, as described by the
spec's idempotence property: the same-length state sequence obtained by
replacing each absent marker with a repeat of the current effective state.
Before any switch has been emitted the effective state is undetermined. -/
def effectiveExpansion (switches : List (Option LightSwitch)) : List LightState :=
  expandEffective LightState.UNDETERMINED switches

/-- A timed switch (`TimedSwitch` in the source): the time since the start
of the first block, and the switch to make at that time.  Durations and
times are modelled as exact integers (microsecond counts). -/
abbrev TimedSwitch := ℤ × LightSwitch

/-- `timed_switches` from the source: zip the running sums of the durations
— `itertools.accumulate(durations, initial=timedelta())`, which yields the
initial zero followed by one partial sum per duration — with the
switch-or-absent sequence (`zip` stops at the shorter operand), keeping
only the present switches. -/
def timed_switches (durations : List ℤ) (switches : List (Option LightSwitch)) :
    List TimedSwitch :=
  (List.zip (List.scanl (fun a b => a + b) 0 durations) switches).filterMap
    (fun p => p.2.map (fun sw => (p.1, sw)))

/-- The timestamp binder as the spec words it: one `TimedSwitch` per present
switch, in input order, whose offset is the exclusive prefix sum of the
durations up to the switch's block index. -/
def specTimedSwitches (durations : List ℤ) (switches : List (Option LightSwitch)) :
    List TimedSwitch :=
  switches.enum.filterMap
    (fun p => p.2.map (fun sw => ((durations.take p.1).sum, sw)))

/-- A timed function call (`TimedCall` in the source): the time since the
start of the first block, and the name of the function to call then. -/
abbrev TimedCall := ℤ × String

/-- One entry of the final schedule: a time and the names of all functions
to call at that time, in order. -/
abbrev ScheduleEntry := ℤ × List String

/-- `timed_calls` from the source: map each timed switch to the
channel-specific function name for its switch direction. -/
def timed_calls (ts : List TimedSwitch) (onName offName : String) : List TimedCall :=
  ts.map (fun p => (p.1, match p.2 with
    | LightSwitch.ON => onName
    | LightSwitch.OFF => offName))

/-- One insertion step of the stable sort by time modelling Python's
`sorted(..., key=itemgetter(0))`: the inserted call moves past exactly the
calls with a strictly smaller time, so calls with equal times keep their
original relative order. -/
def insertByTime (x : TimedCall) : List TimedCall → List TimedCall
  | [] => [x]
  | y :: ys => if y.1 < x.1 then y :: insertByTime x ys else x :: y :: ys

/-- Stable sort of timed calls by time only (`sorted(..., key=first)` in
the source: a stable sort comparing only the time component). -/
def sortByTime : List TimedCall → List TimedCall
  | [] => []
  | x :: xs => insertByTime x (sortByTime xs)

/-- `itertools.groupby(..., key=first)` from the source: group consecutive
calls with equal times into one schedule entry carrying the common time and
the function names in order. -/
def groupByTime : List TimedCall → List ScheduleEntry
  | [] => []
  | x :: xs =>
    match groupByTime xs with
    | [] => [(x.1, [x.2])]
    | (t, ns) :: rest =>
      if x.1 = t then (t, x.2 :: ns) :: rest
      else (x.1, [x.2]) :: (t, ns) :: rest

/-- `sorted_grouped_calls` from the source: concatenate the per-channel
call sequences in channel order (`itertools.chain`), stable-sort the
concatenation by time only, and group consecutive equal times. -/
def sorted_grouped_calls (channels : List (List TimedCall)) : List ScheduleEntry :=
  groupByTime (sortByTime channels.flatten)

/-- The merge stage as the spec words it: concatenate preserving channel
order, stable-sort by offset only, group consecutive equal offsets. -/
def specMergeSchedule (channels : List (List TimedCall)) : List ScheduleEntry :=
  groupByTime (sortByTime (List.flatten channels))

/-- In the absence of `UNDETERMINED` blocks the reducer loop alternates:
the emitted switches of `switchesFrom`, with the switch for the current
state prepended, contain no two equal consecutive elements. -/
lemma chain_switchesFrom (l : List LightState) (hU : LightState.UNDETERMINED ∉ l)
    (sw : LightSwitch) :
    List.Chain' (fun a b => a ≠ b)
      (sw :: (switchesFrom (stateOfSwitch sw) l).filterMap id) := by
  induction l generalizing sw with
  | nil => simp [switchesFrom]
  | cons next rest ih =>
    have hnext : next ≠ LightState.UNDETERMINED := fun h => hU (by simp [h])
    have hrest : LightState.UNDETERMINED ∉ rest := fun h => hU (List.mem_cons_of_mem _ h)
    by_cases heq : next = stateOfSwitch sw
    · have e1 : switchesFrom (stateOfSwitch sw) (next :: rest)
          = none :: switchesFrom next rest := by
        simp [switchesFrom, heq]
      rw [e1, heq]
      exact ih hrest sw
    · cases next with
      | UNDETERMINED => exact absurd rfl hnext
      | ON =>
        have e1 : switchesFrom (stateOfSwitch sw) (LightState.ON :: rest)
            = some LightSwitch.ON :: switchesFrom LightState.ON rest := by
          simp [switchesFrom, heq]
        rw [e1]
        have hsw : sw ≠ LightSwitch.ON := by
          intro h; exact heq (by rw [h]; rfl)
        exact List.chain'_cons.mpr ⟨hsw, ih hrest LightSwitch.ON⟩
      | OFF =>
        have e1 : switchesFrom (stateOfSwitch sw) (LightState.OFF :: rest)
            = some LightSwitch.OFF :: switchesFrom LightState.OFF rest := by
          simp [switchesFrom, heq]
        rw [e1]
        have hsw : sw ≠ LightSwitch.OFF := by
          intro h; exact heq (by rw [h]; rfl)
        exact List.chain'_cons.mpr ⟨hsw, ih hrest LightSwitch.OFF⟩

/-- Claim C1 (amended): for a non-empty state sequence whose first state is
determined and which contains no `UNDETERMINED` block, the reducer
succeeds and its emitted switches (the present entries, in order) never
contain two equal consecutive switches. -/
theorem lightSwitches_no_redundant (s0 : LightState) (rest : List LightState)
    (h0 : s0 ≠ LightState.UNDETERMINED) (hU : LightState.UNDETERMINED ∉ rest) :
    ∃ out, light_switches (s0 :: rest) = Except.ok out ∧
      List.Chain' (fun a b => a ≠ b) (out.filterMap id) := by
  cases s0 with
  | UNDETERMINED => exact absurd rfl h0
  | ON =>
    exact ⟨some LightSwitch.ON :: switchesFrom LightState.ON rest, rfl,
      chain_switchesFrom rest hU LightSwitch.ON⟩
  | OFF =>
    exact ⟨some LightSwitch.OFF :: switchesFrom LightState.OFF rest, rfl,
      chain_switchesFrom rest hU LightSwitch.OFF⟩

/-- Claim C1 witness: a concrete run satisfying the amended theorem's
hypotheses. -/
theorem lightSwitches_no_redundant_witness :
    (LightState.ON ≠ LightState.UNDETERMINED ∧
      LightState.UNDETERMINED ∉ [LightState.OFF]) ∧
    ∃ out, light_switches [LightState.ON, LightState.OFF] = Except.ok out ∧
      List.Chain' (fun a b => a ≠ b) (out.filterMap id) :=
  ⟨⟨by decide, by decide⟩,
    lightSwitches_no_redundant LightState.ON [LightState.OFF] (by decide) (by decide)⟩

/-- Claim C1 counterexample: on `[ON, UNDETERMINED, ON]` the reducer emits
the switch `ON` twice in a row (the loop variable is reassigned to
`UNDETERMINED`, so the block after the gap no longer equals it), refuting
the claim that adjacent emitted switches always differ. -/
theorem lightSwitches_redundant_after_gap :
    light_switches [LightState.ON, LightState.UNDETERMINED, LightState.ON]
      = Except.ok [some LightSwitch.ON, none, some LightSwitch.ON] ∧
    ¬ List.Chain' (fun a b => a ≠ b)
        (([some LightSwitch.ON, none, some LightSwitch.ON]).filterMap id) :=
  ⟨by decide, by simp [List.chain'_cons]⟩

/-- Without `UNDETERMINED` blocks the effective-state expansion of the
reducer loop's output restores the input states. -/
lemma expand_switchesFrom (l : List LightState) (hU : LightState.UNDETERMINED ∉ l) :
    ∀ st : LightState, st ≠ LightState.UNDETERMINED →
      expandEffective st (switchesFrom st l) = l := by
  induction l with
  | nil => intro st _; rfl
  | cons next rest ih =>
    intro st hst
    have hnext : next ≠ LightState.UNDETERMINED := fun h => hU (by simp [h])
    have hrest : LightState.UNDETERMINED ∉ rest := fun h => hU (List.mem_cons_of_mem _ h)
    by_cases heq : next = st
    · subst heq
      have e1 : switchesFrom next (next :: rest) = none :: switchesFrom next rest := by
        simp [switchesFrom]
      rw [e1]
      show next :: expandEffective next (switchesFrom next rest) = next :: rest
      rw [ih hrest next hnext]
    · cases next with
      | UNDETERMINED => exact absurd rfl hnext
      | ON =>
        have e1 : switchesFrom st (LightState.ON :: rest)
            = some LightSwitch.ON :: switchesFrom LightState.ON rest := by
          simp [switchesFrom, heq]
        rw [e1]
        show LightState.ON :: expandEffective LightState.ON (switchesFrom LightState.ON rest)
          = LightState.ON :: rest
        rw [ih hrest LightState.ON (by decide)]
      | OFF =>
        have e1 : switchesFrom st (LightState.OFF :: rest)
            = some LightSwitch.OFF :: switchesFrom LightState.OFF rest := by
          simp [switchesFrom, heq]
        rw [e1]
        show LightState.OFF :: expandEffective LightState.OFF (switchesFrom LightState.OFF rest)
          = LightState.OFF :: rest
        rw [ih hrest LightState.OFF (by decide)]

/-- Claim C2 (amended): for a non-empty state sequence whose first state is
determined and which contains no `UNDETERMINED` block, the reducer applied
to the effective-state expansion of its own output reproduces that output
exactly. -/
theorem lightSwitches_idempotent (s0 : LightState) (rest : List LightState)
    (h0 : s0 ≠ LightState.UNDETERMINED) (hU : LightState.UNDETERMINED ∉ rest)
    (out : List (Option LightSwitch))
    (hout : light_switches (s0 :: rest) = Except.ok out) :
    light_switches (effectiveExpansion out) = Except.ok out := by
  cases s0 with
  | UNDETERMINED => exact absurd rfl h0
  | ON =>
    have hout2 : some LightSwitch.ON :: switchesFrom LightState.ON rest = out :=
      Except.ok.inj hout
    subst hout2
    have hexp : effectiveExpansion (some LightSwitch.ON :: switchesFrom LightState.ON rest)
        = LightState.ON :: rest := by
      show LightState.ON :: expandEffective LightState.ON (switchesFrom LightState.ON rest)
        = LightState.ON :: rest
      rw [expand_switchesFrom rest hU LightState.ON (by decide)]
    rw [hexp]
    exact hout
  | OFF =>
    have hout2 : some LightSwitch.OFF :: switchesFrom LightState.OFF rest = out :=
      Except.ok.inj hout
    subst hout2
    have hexp : effectiveExpansion (some LightSwitch.OFF :: switchesFrom LightState.OFF rest)
        = LightState.OFF :: rest := by
      show LightState.OFF :: expandEffective LightState.OFF (switchesFrom LightState.OFF rest)
        = LightState.OFF :: rest
      rw [expand_switchesFrom rest hU LightState.OFF (by decide)]
    rw [hexp]
    exact hout

/-- Claim C2 witness: a concrete run satisfying the amended theorem's
hypotheses. -/
theorem lightSwitches_idempotent_witness :
    (LightState.ON ≠ LightState.UNDETERMINED ∧
      LightState.UNDETERMINED ∉ [LightState.OFF] ∧
      light_switches [LightState.ON, LightState.OFF]
        = Except.ok [some LightSwitch.ON, some LightSwitch.OFF]) ∧
    light_switches (effectiveExpansion [some LightSwitch.ON, some LightSwitch.OFF])
      = Except.ok [some LightSwitch.ON, some LightSwitch.OFF] :=
  ⟨⟨by decide, by decide, by decide⟩,
    lightSwitches_idempotent LightState.ON [LightState.OFF] (by decide) (by decide)
      [some LightSwitch.ON, some LightSwitch.OFF] (by decide)⟩

/-- Claim C2 counterexample: on `[OFF, UNDETERMINED, OFF]` the reducer's
output is `[OFF, absent, OFF]`; its effective-state expansion is
`[OFF, OFF, OFF]`, on which the reducer produces `[OFF, absent, absent]`
instead — the reduction is not idempotent. -/
theorem lightSwitches_reduction_not_idempotent :
    light_switches [LightState.OFF, LightState.UNDETERMINED, LightState.OFF]
      = Except.ok [some LightSwitch.OFF, none, some LightSwitch.OFF] ∧
    light_switches
        (effectiveExpansion [some LightSwitch.OFF, none, some LightSwitch.OFF])
      ≠ Except.ok [some LightSwitch.OFF, none, some LightSwitch.OFF] :=
  ⟨by decide, by decide⟩

/-- Claim C7: the reducer fails with `EmptyInputError` exactly on the empty
sequence, fails with `IndeterminateStartError` exactly when the first state
is `UNDETERMINED`, and otherwise its first output is the definite switch
matching the first state (`TurnOn` for `On`, `TurnOff` for `Off`).  In the
failure cases the `Except` result carries no switch output at all. -/
theorem lightSwitches_validation (states : List LightState) :
    (light_switches states = Except.error CompileError.emptyInputError ↔ states = []) ∧
    (light_switches states = Except.error CompileError.indeterminateStartError ↔
      states.head? = some LightState.UNDETERMINED) ∧
    (states.head? = some LightState.ON →
      ∃ out, light_switches states = Except.ok (some LightSwitch.ON :: out)) ∧
    (states.head? = some LightState.OFF →
      ∃ out, light_switches states = Except.ok (some LightSwitch.OFF :: out)) := by
  match states with
  | [] => refine ⟨by simp [light_switches], by simp [light_switches], by simp, by simp⟩
  | LightState.UNDETERMINED :: rest =>
    refine ⟨by simp [light_switches], by simp [light_switches], by simp, by simp⟩
  | LightState.ON :: rest =>
    refine ⟨by simp [light_switches], by simp [light_switches], ?_, by simp⟩
    exact fun _ => ⟨switchesFrom LightState.ON rest, rfl⟩
  | LightState.OFF :: rest =>
    refine ⟨by simp [light_switches], by simp [light_switches], by simp, ?_⟩
    exact fun _ => ⟨switchesFrom LightState.OFF rest, rfl⟩

/-- Claim C7 witness: the reducer on the concrete sequence `[On]` starts
with the definite switch `TurnOn`. -/
theorem lightSwitches_validation_witness :
    ∃ out, light_switches [LightState.ON] = Except.ok (some LightSwitch.ON :: out) :=
  (lightSwitches_validation [LightState.ON]).2.2.1 rfl

/-- Claim C8: the round-trip scenario.  Tokens `["ON", "", "OFF", ""]` with
durations `[2, 3, 1, 4]` compile to exactly the timed switches
`(0, TurnOn)` and `(5, TurnOff)`, in that order. -/
theorem roundTrip_scenario :
    (light_states ["ON", "", "OFF", ""]).bind (fun states =>
      (light_switches states).map (fun switches => timed_switches [2, 3, 1, 4] switches))
    = Except.ok [((0 : ℤ), LightSwitch.ON), ((5 : ℤ), LightSwitch.OFF)] := by
  decide

/-- A recognized token parses to its interpretation. -/
lemma parseToken_ok (t : String) (h : recognizedToken t) :
    parseToken t = Except.ok (interpToken t) := by
  rcases h with h | h | h | h <;> simp [parseToken, interpToken, h]

/-- An unrecognized token parses to the format error naming its stripped
form. -/
lemma parseToken_bad (t : String) (h : ¬ recognizedToken t) :
    parseToken t = Except.error (CompileError.formatError (strip t)) := by
  have h1 : ¬ strip t = "" := fun hh => h (Or.inl hh)
  have h2 : ¬ strip t = "ON" := fun hh => h (Or.inr (Or.inl hh))
  have h3 : ¬ strip t = "OFF" := fun hh => h (Or.inr (Or.inr (Or.inl hh)))
  have h4 : ¬ strip t = "UNDETERMINED" := fun hh => h (Or.inr (Or.inr (Or.inr hh)))
  simp [parseToken, h1, h2, h3, h4]

/-- Claim C3 (amended): `light_states` strips each token; it fails (with a
`FormatError` naming the first offending stripped token, every token before
it being acceptable) exactly when some token is non-empty after stripping
and is none of the enum member names `ON`, `OFF`, `UNDETERMINED`; on
success each token maps to `On` for `ON`, `Off` for `OFF`, and
`Undetermined` for an empty or `UNDETERMINED` token. -/
theorem lightStates_spec (tokens : List String) :
    ((∃ e, light_states tokens = Except.error e) ↔
      ∃ tok ∈ tokens, ¬ recognizedToken tok) ∧
    (∀ pre tok rest, tokens = pre ++ tok :: rest →
      (∀ t ∈ pre, recognizedToken t) → ¬ recognizedToken tok →
      light_states tokens = Except.error (CompileError.formatError (strip tok))) ∧
    (∀ states, light_states tokens = Except.ok states →
      states = tokens.map interpToken) := by
  induction tokens with
  | nil =>
    refine ⟨by simp [light_states], ?_, by simp [light_states]⟩
    intro pre tok rest hsplit
    exact absurd hsplit (by simp)
  | cons t ts ih =>
    obtain ⟨ih1, ih2, ih3⟩ := ih
    by_cases hr : recognizedToken t
    · constructor
      · constructor
        · intro ⟨e, he⟩
          rw [light_states, parseToken_ok t hr] at he
          match hts : light_states ts with
          | Except.error f =>
            exact ⟨_, List.mem_cons_of_mem _ (ih1.mp ⟨f, hts⟩).choose_spec.1,
              (ih1.mp ⟨f, hts⟩).choose_spec.2⟩
          | Except.ok sts => rw [hts] at he; exact absurd he (by simp)
        · intro ⟨tok, htok, hbad⟩
          rcases List.mem_cons.mp htok with rfl | hmem
          · exact absurd hr hbad
          · obtain ⟨e, he⟩ := ih1.mpr ⟨tok, hmem, hbad⟩
            rw [light_states, parseToken_ok t hr, he]
            exact ⟨e, rfl⟩
      constructor
      · intro pre tok rest hsplit hpre hbad
        match pre with
        | [] =>
          obtain ⟨rfl, _⟩ := List.cons.inj hsplit
          exact absurd hr hbad
        | p :: pre2 =>
          obtain ⟨rfl, hsplit2⟩ := List.cons.inj hsplit
          have := ih2 pre2 tok rest hsplit2
            (fun u hu => hpre u (List.mem_cons_of_mem _ hu)) hbad
          rw [light_states, parseToken_ok t hr, this]
      · intro states hok
        rw [light_states, parseToken_ok t hr] at hok
        match hts : light_states ts with
        | Except.error f => rw [hts] at hok; exact absurd hok (by simp)
        | Except.ok sts =>
          rw [hts] at hok
          have := Except.ok.inj hok
          rw [← this, List.map_cons, ih3 sts hts]
    · have hfail : light_states (t :: ts)
          = Except.error (CompileError.formatError (strip t)) := by
        rw [light_states, parseToken_bad t hr]
      refine ⟨⟨fun _ => ⟨t, List.mem_cons_self t ts, hr⟩, fun _ => ⟨_, hfail⟩⟩, ?_, ?_⟩
      · intro pre tok rest hsplit hpre hbad
        match pre with
        | [] =>
          obtain ⟨rfl, _⟩ := List.cons.inj hsplit
          exact hfail
        | p :: pre2 =>
          obtain ⟨rfl, _⟩ := List.cons.inj hsplit
          exact absurd (hpre t (List.mem_cons_self t pre2)) hr
      · intro states hok
        rw [hfail] at hok
        exact absurd hok (by simp)

/-- Claim C3 witness: the concrete token `" GREEN "` is unrecognized, and
parsing `[" GREEN "]` fails with the format error naming the stripped
token `GREEN`. -/
theorem lightStates_spec_witness :
    ¬ recognizedToken " GREEN " ∧
    light_states [" GREEN "] = Except.error (CompileError.formatError "GREEN") :=
  ⟨by decide,
    (lightStates_spec [" GREEN "]).2.1 [] " GREEN " [] rfl (by simp) (by decide)⟩

/-- Claim C3 counterexample: the token `UNDETERMINED` is non-empty after
stripping and is neither `ON` nor `OFF`, yet the parser does not fail —
the source's enum name lookup `LightState[state]` also accepts the member
name `UNDETERMINED`.  This refutes the claimed failure condition. -/
theorem lightStates_accepts_undetermined_token :
    (strip "UNDETERMINED" ≠ "" ∧ strip "UNDETERMINED" ≠ "ON" ∧
      strip "UNDETERMINED" ≠ "OFF") ∧
    light_states ["UNDETERMINED"] = Except.ok [LightState.UNDETERMINED] :=
  ⟨⟨by decide, by decide, by decide⟩, by decide⟩

/-- `zip` only consumes the left operand's length of the right operand. -/
lemma zip_take_len {α β : Type} (l : List α) : ∀ s : List β,
    List.zip l (s.take l.length) = List.zip l s := by
  induction l with
  | nil => intro s; simp
  | cons a l ih =>
    intro s
    cases s with
    | nil => simp
    | cons b s => simp [List.zip_cons_cons, List.take_succ_cons, ih s]

/-- Claim C4 (amended): the timestamp binder pairs positionally and ignores
everything beyond the shorter of the offsets sequence — which has one more
entry than the durations, because the running sums start with the initial
zero — and the switch sequence: truncating the switches at
`min (durations.length + 1) (switches.length)` does not change the
output. -/
theorem timedSwitches_ignores_beyond (d : List ℤ) (s : List (Option LightSwitch)) :
    timed_switches d s
      = timed_switches d (s.take (min (d.length + 1) s.length)) := by
  unfold timed_switches
  congr 1
  have h1 : s.take (min (d.length + 1) s.length) = s.take (d.length + 1) :=
    List.take_eq_take.mpr (by simp [min_assoc])
  have h2 : (List.scanl (fun a b => a + b) 0 d).length = d.length + 1 :=
    List.length_scanl 0 d
  rw [h1, ← h2]
  exact (zip_take_len _ s).symm

/-- Claim C4 counterexample: with one duration and two present switches the
claim's bound `min(n, m) = 1` would forbid block 1 from contributing, yet
the code emits its switch — the pairing in the source stops at
`min(n + 1, m)` because the running sums include the initial zero. -/
theorem timedSwitches_beyond_min_contributes :
    timed_switches [(1 : ℤ)] [some LightSwitch.ON, some LightSwitch.OFF]
      ≠ timed_switches [(1 : ℤ)]
          (([some LightSwitch.ON, some LightSwitch.OFF]).take
            (min [(1 : ℤ)].length
              [some LightSwitch.ON, some LightSwitch.OFF].length)) := by
  decide

/-- Generalised prefix-sum shape of the zip in `timed_switches`: starting
the running sums at block `n` of the full duration list, every block pairs
with the exclusive prefix sum of the durations before it. -/
lemma bindAux (D : List ℤ) : ∀ (s : List (Option LightSwitch)) (n : ℕ),
    s.length ≤ (D.drop n).length + 1 →
    (List.zip (List.scanl (fun a b => a + b) ((D.take n).sum) (D.drop n)) s).filterMap
      (fun p => p.2.map (fun sw => (p.1, sw)))
    = (List.enumFrom n s).filterMap
      (fun p => p.2.map (fun sw => ((D.take p.1).sum, sw))) := by
  intro s
  induction s with
  | nil => intro n _; simp
  | cons x s ih =>
    intro n h
    cases hd : D.drop n with
    | nil =>
      have hs : s = [] := by
        rw [hd] at h
        simpa using h
      subst hs
      cases x with
      | none =>
        simp [List.scanl_nil, List.zip_cons_cons, List.zip_nil_right,
          List.enumFrom_cons, List.filterMap_cons]
      | some sw =>
        simp [List.scanl_nil, List.zip_cons_cons, List.zip_nil_right,
          List.enumFrom_cons, List.filterMap_cons]
    | cons a rest =>
      have hn : D.drop (n + 1) = rest := by
        rw [← List.drop_drop 1 n D, hd]
        rfl
      have ha : D[n]? = some a := by
        rw [← List.head?_drop, hd]
        rfl
      have htake : (D.take (n + 1)).sum = (D.take n).sum + a := by
        rw [List.take_succ, ha, List.sum_append]
        simp
      have hlen : s.length ≤ (D.drop (n + 1)).length + 1 := by
        rw [hn]
        rw [hd] at h
        simp at h ⊢
        omega
      have ihx := ih (n + 1) hlen
      rw [hn, htake] at ihx
      rw [List.scanl_cons, List.enumFrom_cons]
      cases x with
      | none =>
        simp only [List.singleton_append, List.zip_cons_cons, List.filterMap_cons,
          Option.map_none']
        exact ihx
      | some sw =>
        simp only [List.singleton_append, List.zip_cons_cons, List.filterMap_cons,
          Option.map_some']
        rw [ihx]

/-- Claim C5 (amended): when the switch sequence is no longer than the
offsets sequence (durations plus the initial zero — in particular for the
same-length sequences of the pipeline), the timestamp binder emits exactly
one timed switch per present switch, in input order, whose offset is the
exclusive prefix sum of the durations before its block; the offset of
block 0 is zero. -/
theorem timedSwitches_prefix_sum (d : List ℤ) (s : List (Option LightSwitch))
    (h : s.length ≤ d.length + 1) :
    timed_switches d s = specTimedSwitches d s ∧ ((d.take 0).sum : ℤ) = 0 :=
  ⟨bindAux d s 0 h, rfl⟩

/-- Claim C5 witness: a concrete instance of the amended prefix-sum
theorem. -/
theorem timedSwitches_prefix_sum_witness :
    (([some LightSwitch.ON, none] : List (Option LightSwitch)).length
        ≤ [(1 : ℤ)].length + 1) ∧
    (timed_switches [(1 : ℤ)] [some LightSwitch.ON, none]
        = specTimedSwitches [(1 : ℤ)] [some LightSwitch.ON, none] ∧
      (([(1 : ℤ)].take 0).sum : ℤ) = 0) :=
  ⟨by decide, timedSwitches_prefix_sum [(1 : ℤ)] [some LightSwitch.ON, none] (by decide)⟩

/-- Claim C5 counterexample: with no durations and two switch entries the
present switch of block 1 produces no timed switch at all (the zip runs
out of offsets), so the universally stated claim — one timed switch per
present switch for every pair of sequences — fails. -/
theorem timedSwitches_drops_trailing_switch :
    timed_switches ([] : List ℤ) [none, some LightSwitch.ON]
      ≠ specTimedSwitches ([] : List ℤ) [none, some LightSwitch.ON] := by
  decide

/-- Membership in an insertion step. -/
lemma mem_insertByTime {z x : TimedCall} {l : List TimedCall} :
    z ∈ insertByTime x l ↔ z = x ∨ z ∈ l := by
  induction l with
  | nil => simp [insertByTime]
  | cons y ys ih =>
    by_cases hlt : y.1 < x.1 <;>
      simp [insertByTime, hlt, ih, or_assoc, or_left_comm]

/-- Each insertion step preserves the filtered subsequence at any fixed
time: the inserted call lands in front of the calls sharing its time
(stability), and calls at other times are untouched. -/
lemma insertByTime_filter (T : ℤ) (x : TimedCall) (l : List TimedCall) :
    (insertByTime x l).filter (fun c => decide (c.1 = T))
      = if x.1 = T then x :: l.filter (fun c => decide (c.1 = T))
        else l.filter (fun c => decide (c.1 = T)) := by
  induction l with
  | nil => by_cases hx : x.1 = T <;> simp [insertByTime, hx]
  | cons y ys ih =>
    by_cases hlt : y.1 < x.1
    · rw [show insertByTime x (y :: ys) = y :: insertByTime x ys from by
        simp [insertByTime, hlt]]
      by_cases hx : x.1 = T
      · have hyT : ¬ (y.1 = T) := by rw [← hx]; exact ne_of_lt hlt
        simp [List.filter_cons, hyT, ih, hx]
      · simp [List.filter_cons, ih, hx]
    · rw [show insertByTime x (y :: ys) = x :: y :: ys from by
        simp [insertByTime, hlt]]
      by_cases hx : x.1 = T <;> simp [List.filter_cons, hx]

/-- The stable sort preserves the subsequence of calls at any fixed time. -/
lemma sortByTime_filter (T : ℤ) (l : List TimedCall) :
    (sortByTime l).filter (fun c => decide (c.1 = T))
      = l.filter (fun c => decide (c.1 = T)) := by
  induction l with
  | nil => rfl
  | cons x xs ih =>
    rw [sortByTime, insertByTime_filter, ih]
    by_cases hx : x.1 = T <;> simp [List.filter_cons, hx]

/-- Insertion preserves sortedness by time. -/
lemma insertByTime_sorted (x : TimedCall) (l : List TimedCall)
    (h : l.Pairwise (fun a b => a.1 ≤ b.1)) :
    (insertByTime x l).Pairwise (fun a b => a.1 ≤ b.1) := by
  induction l with
  | nil => simp [insertByTime]
  | cons y ys ih =>
    rcases List.pairwise_cons.mp h with ⟨hy, hys⟩
    by_cases hlt : y.1 < x.1
    · rw [show insertByTime x (y :: ys) = y :: insertByTime x ys from by
        simp [insertByTime, hlt]]
      refine List.pairwise_cons.mpr ⟨?_, ih hys⟩
      intro z hz
      rcases mem_insertByTime.mp hz with rfl | hz2
      · exact le_of_lt hlt
      · exact hy z hz2
    · rw [show insertByTime x (y :: ys) = x :: y :: ys from by
        simp [insertByTime, hlt]]
      refine List.pairwise_cons.mpr ⟨?_, h⟩
      intro z hz
      rcases List.mem_cons.mp hz with rfl | hz2
      · exact le_of_not_lt hlt
      · exact le_trans (le_of_not_lt hlt) (hy z hz2)

/-- The stable sort sorts by time. -/
lemma sortByTime_sorted (l : List TimedCall) :
    (sortByTime l).Pairwise (fun a b => a.1 ≤ b.1) := by
  induction l with
  | nil => simp [sortByTime]
  | cons x xs ih => exact insertByTime_sorted x _ ih

/-- Insertion permutes the extended list. -/
lemma insertByTime_perm (x : TimedCall) (l : List TimedCall) :
    (insertByTime x l).Perm (x :: l) := by
  induction l with
  | nil => exact List.Perm.refl _
  | cons y ys ih =>
    by_cases hlt : y.1 < x.1
    · rw [show insertByTime x (y :: ys) = y :: insertByTime x ys from by
        simp [insertByTime, hlt]]
      exact (ih.cons y).trans (List.Perm.swap x y ys)
    · rw [show insertByTime x (y :: ys) = x :: y :: ys from by
        simp [insertByTime, hlt]]

/-- The stable sort permutes its input. -/
lemma sortByTime_perm (l : List TimedCall) : (sortByTime l).Perm l := by
  induction l with
  | nil => exact List.Perm.refl _
  | cons x xs ih => exact (insertByTime_perm x (sortByTime xs)).trans (ih.cons x)

/-- Unfolding `groupByTime` on a head whose tail groups to nothing. -/
lemma groupByTime_cons_nil (x : TimedCall) (xs : List TimedCall)
    (h : groupByTime xs = []) :
    groupByTime (x :: xs) = [(x.1, [x.2])] := by
  rw [groupByTime, h]

/-- Unfolding `groupByTime` when the head joins the first existing group. -/
lemma groupByTime_cons_eq (x : TimedCall) (xs : List TimedCall) (t : ℤ)
    (ns : List String) (rest : List ScheduleEntry)
    (h : groupByTime xs = (t, ns) :: rest) (hx : x.1 = t) :
    groupByTime (x :: xs) = (t, x.2 :: ns) :: rest := by
  rw [groupByTime, h]
  simp [hx]

/-- Unfolding `groupByTime` when the head opens a new group. -/
lemma groupByTime_cons_ne (x : TimedCall) (xs : List TimedCall) (t : ℤ)
    (ns : List String) (rest : List ScheduleEntry)
    (h : groupByTime xs = (t, ns) :: rest) (hx : ¬ x.1 = t) :
    groupByTime (x :: xs) = (x.1, [x.2]) :: (t, ns) :: rest := by
  rw [groupByTime, h]
  simp [hx]

/-- Grouping yields nothing exactly on the empty list. -/
lemma groupByTime_eq_nil_iff (l : List TimedCall) :
    groupByTime l = [] ↔ l = [] := by
  cases l with
  | nil => simp [groupByTime]
  | cons x xs =>
    constructor
    · intro hg
      cases h : groupByTime xs with
      | nil => rw [groupByTime_cons_nil x xs h] at hg; exact absurd hg (by simp)
      | cons e rest =>
        obtain ⟨t, ns⟩ := e
        by_cases hx : x.1 = t
        · rw [groupByTime_cons_eq x xs t ns rest h hx] at hg
          exact absurd hg (by simp)
        · rw [groupByTime_cons_ne x xs t ns rest h hx] at hg
          exact absurd hg (by simp)
    · intro hg
      exact absurd hg (by simp)

/-- The first group of a non-empty list carries the head's time. -/
lemma groupByTime_head_key (x : TimedCall) (xs : List TimedCall) :
    ∃ ns rest, groupByTime (x :: xs) = (x.1, ns) :: rest := by
  cases h : groupByTime xs with
  | nil => exact ⟨[x.2], [], groupByTime_cons_nil x xs h⟩
  | cons e rest =>
    obtain ⟨t, ns⟩ := e
    by_cases hx : x.1 = t
    · refine ⟨x.2 :: ns, rest, ?_⟩
      rw [hx]
      exact groupByTime_cons_eq x xs t ns rest h hx
    · exact ⟨[x.2], (t, ns) :: rest, groupByTime_cons_ne x xs t ns rest h hx⟩

/-- Every group time occurs as the time of some call of the list. -/
lemma groupByTime_key_mem (l : List TimedCall) : ∀ T ns,
    (T, ns) ∈ groupByTime l → ∃ c ∈ l, c.1 = T := by
  induction l with
  | nil => simp [groupByTime]
  | cons x xs ih =>
    intro T ns hmem
    cases h : groupByTime xs with
    | nil =>
      rw [groupByTime_cons_nil x xs h] at hmem
      simp at hmem
      exact ⟨x, List.mem_cons_self x xs, hmem.1.symm⟩
    | cons e rest =>
      obtain ⟨t, ms⟩ := e
      by_cases hx : x.1 = t
      · rw [groupByTime_cons_eq x xs t ms rest h hx] at hmem
        rcases List.mem_cons.mp hmem with heq | hmem2
        · obtain ⟨rfl, rfl⟩ := Prod.mk.inj heq
          exact ⟨x, List.mem_cons_self x xs, hx⟩
        · obtain ⟨c, hc, hcT⟩ := ih T ns (by rw [h]; exact List.mem_cons_of_mem _ hmem2)
          exact ⟨c, List.mem_cons_of_mem _ hc, hcT⟩
      · rw [groupByTime_cons_ne x xs t ms rest h hx] at hmem
        rcases List.mem_cons.mp hmem with heq | hmem2
        · obtain ⟨rfl, rfl⟩ := Prod.mk.inj heq
          exact ⟨x, List.mem_cons_self x xs, rfl⟩
        · obtain ⟨c, hc, hcT⟩ := ih T ns (by rw [h]; exact hmem2)
          exact ⟨c, List.mem_cons_of_mem _ hc, hcT⟩

/-- Grouping a time-sorted list yields strictly increasing group times. -/
lemma groupByTime_sorted_lt (l : List TimedCall)
    (hl : l.Pairwise (fun a b => a.1 ≤ b.1)) :
    (groupByTime l).Pairwise (fun a b => a.1 < b.1) := by
  induction l with
  | nil => simp [groupByTime]
  | cons x xs ih =>
    rcases List.pairwise_cons.mp hl with ⟨hx, hxs⟩
    have ihg := ih hxs
    cases h : groupByTime xs with
    | nil => rw [groupByTime_cons_nil x xs h]; simp
    | cons e rest =>
      obtain ⟨t, ms⟩ := e
      rw [h] at ihg
      have hxs_ne : xs ≠ [] := fun hn => by
        rw [hn] at h
        simp [groupByTime] at h
      obtain ⟨y, ys, rfl⟩ := List.exists_cons_of_ne_nil hxs_ne
      obtain ⟨ns2, rest2, hg2⟩ := groupByTime_head_key y ys
      have hty : t = y.1 := (Prod.mk.inj (List.cons.inj (h.symm.trans hg2)).1).1
      by_cases hxt : x.1 = t
      · rw [groupByTime_cons_eq x (y :: ys) t ms rest h hxt]
        exact List.pairwise_cons.mpr
          ⟨(List.pairwise_cons.mp ihg).1, (List.pairwise_cons.mp ihg).2⟩
      · rw [groupByTime_cons_ne x (y :: ys) t ms rest h hxt]
        have hxlt : x.1 < t := by
          have hle : x.1 ≤ y.1 := hx y (List.mem_cons_self y ys)
          rw [← hty] at hle
          exact lt_of_le_of_ne hle hxt
        refine List.pairwise_cons.mpr ⟨?_, ihg⟩
        intro b hb
        rcases List.mem_cons.mp hb with rfl | hb2
        · exact hxlt
        · exact lt_trans hxlt ((List.pairwise_cons.mp ihg).1 b hb2)

/-- On a time-sorted list, the names of the group at time `T` are exactly
the names of the calls at time `T`, in list order. -/
lemma groupByTime_names (l : List TimedCall)
    (hl : l.Pairwise (fun a b => a.1 ≤ b.1)) : ∀ T ns,
    (T, ns) ∈ groupByTime l →
      ns = (l.filter (fun c => decide (c.1 = T))).map Prod.snd := by
  induction l with
  | nil => simp [groupByTime]
  | cons x xs ih =>
    rcases List.pairwise_cons.mp hl with ⟨hx, hxs⟩
    intro T ns hmem
    cases h : groupByTime xs with
    | nil =>
      have hxs_nil : xs = [] := (groupByTime_eq_nil_iff xs).mp h
      subst hxs_nil
      rw [groupByTime_cons_nil x [] h] at hmem
      simp at hmem
      obtain ⟨rfl, rfl⟩ := hmem
      simp [List.filter_cons]
    | cons e rest =>
      obtain ⟨t, ms⟩ := e
      have hxs_ne : xs ≠ [] := fun hn => by
        rw [hn] at h
        simp [groupByTime] at h
      obtain ⟨y, ys, rfl⟩ := List.exists_cons_of_ne_nil hxs_ne
      obtain ⟨ns2, rest2, hg2⟩ := groupByTime_head_key y ys
      have hty : t = y.1 := (Prod.mk.inj (List.cons.inj (h.symm.trans hg2)).1).1
      have hylb : ∀ c ∈ y :: ys, y.1 ≤ c.1 := by
        intro c hc
        rcases List.mem_cons.mp hc with rfl | hc2
        · exact le_refl _
        · exact (List.pairwise_cons.mp hxs).1 c hc2
      have hsg := groupByTime_sorted_lt (y :: ys) hxs
      rw [h] at hsg
      by_cases hxt : x.1 = t
      · rw [groupByTime_cons_eq x (y :: ys) t ms rest h hxt] at hmem
        rcases List.mem_cons.mp hmem with heq | hmem2
        · obtain ⟨rfl, rfl⟩ := Prod.mk.inj heq
          have hms := ih hxs T ms (by rw [h]; exact List.mem_cons_self _ _)
          simp [List.filter_cons, hxt, hms]
        · have hns := ih hxs T ns (by rw [h]; exact List.mem_cons_of_mem _ hmem2)
          have htT : t < T := (List.pairwise_cons.mp hsg).1 (T, ns) hmem2
          have hxT : ¬ (x.1 = T) := by
            rw [hxt]
            exact ne_of_lt htT
          simp [List.filter_cons, hxT, hns]
      · rw [groupByTime_cons_ne x (y :: ys) t ms rest h hxt] at hmem
        have hxlt : x.1 < t := by
          have hle : x.1 ≤ y.1 := hx y (List.mem_cons_self y ys)
          rw [← hty] at hle
          exact lt_of_le_of_ne hle hxt
        rcases List.mem_cons.mp hmem with heq | hmem2
        · obtain ⟨rfl, rfl⟩ := Prod.mk.inj heq
          have hfilter : (y :: ys).filter (fun c => decide (c.1 = x.1)) = [] := by
            rw [List.filter_eq_nil_iff]
            intro c hc
            have hc1 : y.1 ≤ c.1 := hylb c hc
            have hc2 : x.1 < c.1 := lt_of_lt_of_le (by rw [hty] at hxlt; exact hxlt) hc1
            simp
            exact (ne_of_gt hc2)
          simp [List.filter_cons, hfilter]
        · have hns := ih hxs T ns (by rw [h]; exact hmem2)
          have htT : t ≤ T := by
            rcases List.mem_cons.mp hmem2 with heq2 | hmem3
            · rw [(Prod.mk.inj heq2).1]
            · exact le_of_lt ((List.pairwise_cons.mp hsg).1 _ hmem3)
          have hxT : ¬ (x.1 = T) := ne_of_lt (lt_of_lt_of_le hxlt htT)
          simp [List.filter_cons, hxT, hns]

/-- The group sizes of `groupByTime` add up to the list's length. -/
lemma groupByTime_sizes (l : List TimedCall) :
    ((groupByTime l).map (fun e => e.2.length)).sum = l.length := by
  induction l with
  | nil => rfl
  | cons x xs ih =>
    cases h : groupByTime xs with
    | nil =>
      have hxs : xs = [] := (groupByTime_eq_nil_iff xs).mp h
      subst hxs
      rw [groupByTime_cons_nil x [] h]
      rfl
    | cons e rest =>
      obtain ⟨t, ms⟩ := e
      rw [h] at ih
      by_cases hxt : x.1 = t
      · rw [groupByTime_cons_eq x xs t ms rest h hxt]
        simp at ih ⊢
        omega
      · rw [groupByTime_cons_ne x xs t ms rest h hxt]
        simp at ih ⊢
        omega

/-- Every group of `groupByTime` holds at least one name. -/
lemma groupByTime_nonempty (l : List TimedCall) :
    ∀ e ∈ groupByTime l, e.2 ≠ [] := by
  induction l with
  | nil => simp [groupByTime]
  | cons x xs ih =>
    intro e he
    cases h : groupByTime xs with
    | nil =>
      rw [groupByTime_cons_nil x xs h] at he
      simp at he
      rw [he]
      simp
    | cons g rest =>
      obtain ⟨t, ms⟩ := g
      by_cases hxt : x.1 = t
      · rw [groupByTime_cons_eq x xs t ms rest h hxt] at he
        rcases List.mem_cons.mp he with rfl | he2
        · simp
        · exact ih _ (by rw [h]; exact List.mem_cons_of_mem _ he2)
      · rw [groupByTime_cons_ne x xs t ms rest h hxt] at he
        rcases List.mem_cons.mp he with rfl | he2
        · simp
        · exact ih _ (by rw [h]; exact he2)

/-- Filtering a concatenation and keeping the names equals concatenating
the per-channel filtered names. -/
lemma flatten_filter_map (q : TimedCall → Bool) (L : List (List TimedCall)) :
    ((L.flatten.filter q).map Prod.snd)
      = (L.map (fun ch => (ch.filter q).map Prod.snd)).flatten := by
  induction L with
  | nil => rfl
  | cons ch L ih => simp [List.filter_append, ih, Function.comp_def]

/-- Claim C6: the merge stage equals concatenation in channel order,
stable-sorted by offset only, grouped by consecutive equal offsets; hence
its entries are in non-decreasing offset order and the entry at any offset
`T` lists, for each channel in input order, that channel's function names
at `T` in their original order (earlier channels first — merge
stability). -/
theorem sortedGroupedCalls_merge_stability (channels : List (List TimedCall))
    (h : ∀ ch ∈ channels, ch.Pairwise (fun a b => a.1 ≤ b.1)) :
    sorted_grouped_calls channels = specMergeSchedule channels ∧
    (sorted_grouped_calls channels).Pairwise (fun a b => a.1 ≤ b.1) ∧
    (∀ T ns, (T, ns) ∈ sorted_grouped_calls channels →
      ns = (channels.map (fun ch =>
        (ch.filter (fun c => decide (c.1 = T))).map Prod.snd)).flatten) := by
  refine ⟨rfl, ?_, ?_⟩
  · exact (groupByTime_sorted_lt _ (sortByTime_sorted _)).imp (fun hab => le_of_lt hab)
  · intro T ns hmem
    have h1 := groupByTime_names (sortByTime channels.flatten) (sortByTime_sorted _)
      T ns hmem
    rw [sortByTime_filter] at h1
    rw [h1]
    exact flatten_filter_map _ channels

/-- Claim C6 witness: two concrete channels switching at the same offset;
the merged entry lists the first channel's name first. -/
theorem sortedGroupedCalls_merge_stability_witness :
    (∀ ch ∈ [[((0 : ℤ), "a")], [((0 : ℤ), "b")]],
      ch.Pairwise (fun a b : TimedCall => a.1 ≤ b.1)) ∧
    sorted_grouped_calls [[((0 : ℤ), "a")], [((0 : ℤ), "b")]]
      = specMergeSchedule [[((0 : ℤ), "a")], [((0 : ℤ), "b")]] :=
  ⟨by simp, (sortedGroupedCalls_merge_stability [[((0 : ℤ), "a")], [((0 : ℤ), "b")]]
    (by simp)).1⟩

/-- Claim C9: the merge stage is a pure function of its input list: equal
per-channel call lists (including equal tying offsets) produce identical
schedules. -/
theorem sortedGroupedCalls_deterministic (xs ys : List (List TimedCall))
    (h : xs = ys) :
    sorted_grouped_calls xs = sorted_grouped_calls ys := by
  rw [h]

/-- Claim C9 witness: determinism at a concrete input. -/
theorem sortedGroupedCalls_deterministic_witness :
    ([[((0 : ℤ), "g")]] : List (List TimedCall)) = [[((0 : ℤ), "g")]] ∧
    sorted_grouped_calls [[((0 : ℤ), "g")]]
      = sorted_grouped_calls [[((0 : ℤ), "g")]] :=
  ⟨rfl, sortedGroupedCalls_deterministic [[((0 : ℤ), "g")]] [[((0 : ℤ), "g")]] rfl⟩

/-- Claim C10: for every input, the merged schedule's offsets are strictly
increasing, every entry lists at least one function name, and the total
number of listed names equals the total number of input calls. -/
theorem sortedGroupedCalls_invariants (channels : List (List TimedCall)) :
    (sorted_grouped_calls channels).Pairwise (fun a b => a.1 < b.1) ∧
    (∀ e ∈ sorted_grouped_calls channels, e.2 ≠ []) ∧
    ((sorted_grouped_calls channels).map (fun e => e.2.length)).sum
      = (channels.map List.length).sum := by
  refine ⟨groupByTime_sorted_lt _ (sortByTime_sorted _),
    groupByTime_nonempty _, ?_⟩
  show ((groupByTime (sortByTime channels.flatten)).map (fun e => e.2.length)).sum
    = (channels.map List.length).sum
  rw [groupByTime_sizes, (sortByTime_perm _).length_eq, List.length_flatten]

/-- Claim C10 witness: the count invariant at a concrete input. -/
theorem sortedGroupedCalls_invariants_witness :
    ((sorted_grouped_calls [[((0 : ℤ), "p"), ((1 : ℤ), "q")], [((0 : ℤ), "r")]]).map
      (fun e => e.2.length)).sum
      = ([[((0 : ℤ), "p"), ((1 : ℤ), "q")], [((0 : ℤ), "r")]].map List.length).sum :=
  (sortedGroupedCalls_invariants [[((0 : ℤ), "p"), ((1 : ℤ), "q")], [((0 : ℤ), "r")]]).2.2

end TrafficLight
